import Mathlib

/-!
Verification of the devtidy scan/size/clean engine against its
natural-language specification.

The Rust sources are shallowly embedded:
* `src/services/scanner.rs` — pattern matching, gitignore rules, chunking,
  directory sizing;
* `src/services/cleaner.rs` (`src/cleaner.rs`) — concurrent deletion and
  result collection;
* `src/core/app.rs` — the orchestrator state machine (`process_scan_update`,
  the rescan reset, `start_cleaning`, `initialize_app`);
* `src/core/models.rs` — `App`, `CleanableItem`, cursor operations;
* `src/constants.rs` — the static pattern catalog.

Machine integers (`u64`, `usize`) are modelled as `Nat`: all quantities are
counts and byte sizes that only grow by small additions, far from 2^64, and
the source performs no wrapping arithmetic on them.  Filesystem outcomes
(deletion success, directory-ness, metadata reads) are oracles passed in as
functions.  `f32` progress ratios and `Instant` timestamps are outside the
embedding; no claim depends on them.
-/

namespace DevTidy

/-! ## String helpers

The Rust code works on `&str` / `Path`.  We model strings as `String` and,
where character-level matching is needed, work on `String.data`
(`List Char`).
-/

/-- Worker for `globMatchL`.  Each step consumes at least one character of
the pattern or the candidate, so `fuel = ps.length + s.length + 1` always
suffices; the recursion is structural on `fuel` so that the kernel can
evaluate it. -/
def globGo : Nat → List Char → List Char → Bool
  | 0, _, _ => false
  | _ + 1, [], [] => true
  | _ + 1, [], _ :: _ => false
  | fuel + 1, '*' :: ps, s =>
    globGo fuel ps s ||
      (match s with
       | [] => false
       | _ :: s' => globGo fuel ('*' :: ps) s')
  | fuel + 1, p :: ps, c :: s => (p == '?' || p == c) && globGo fuel ps s
  | _ + 1, _ :: _, [] => false

/-- Glob matching as performed by `glob::Pattern::matches` for the patterns
occurring in this program (literals, `*`, `?`; default `MatchOptions`, so
`*` matches any run of characters).  `*` matches any (possibly empty)
sequence, `?` any single character. -/
def globMatchL (ps s : List Char) : Bool :=
  globGo (ps.length + s.length + 1) ps s

/-- `match_glob_pattern` from `scanner.rs` (the patterns used are always
valid, so the `Pattern::new` failure branch is dead). -/
def matchGlobPattern (pattern name : String) : Bool :=
  globMatchL pattern.data name.data

/-- Whether a string contains the character `c` (Rust `str::contains(char)`). -/
def strHasChar (s : String) (c : Char) : Bool :=
  s.data.contains c

/-- Whether a string starts with a `.` (Rust `str::starts_with(".")`). -/
def startsWithDot (s : String) : Bool :=
  match s.data with
  | [] => false
  | c :: _ => c == '.'

/-! ## Pattern catalog (`constants.rs`, `CLEANABLE_PATTERNS`)

The source builds a `HashMap<&str, &str>` by successive inserts of distinct
keys; we keep the insertion list.  `HashMap` iteration order is arbitrary,
so theorems that depend on a match being found must show the matching entry
is unique, not merely first in this list. -/

def cleanablePatterns : List (String × String) :=
  [("node_modules", "Node.js dependencies"),
   ("pnpm-lock.yaml", "pnpm lock file"),
   (".yarn", "Yarn cache directory"),
   (".parcel-cache", "Parcel bundler cache"),
   (".next", "Next.js build artifacts"),
   (".turbo", "Turborepo build artifacts"),
   (".svelte-kit", "SvelteKit build artifacts"),
   (".vite", "Vite cache directory"),
   ("dist", "Distribution files"),
   ("coverage", "Test coverage reports"),
   ("node_modules/.cache", "npm/yarn/pnpm internal cache"),
   ("target", "Rust build artifacts"),
   ("debug", "Rust debug output"),
   ("release", "Rust release output"),
   ("deps", "Rust/Elixir dependencies"),
   ("__pycache__", "Python bytecode cache"),
   (".pytest_cache", "Pytest cache"),
   (".mypy_cache", "MyPy static analysis cache"),
   (".ruff_cache", "Ruff linter cache"),
   ("venv", "Python virtual environment"),
   (".venv", "Python virtual environment"),
   ("env", "Python virtual environment"),
   ("*.pyc", "Compiled Python files"),
   ("*.pyo", "Optimized Python files"),
   ("_build", "Elixir build artifacts"),
   ("build", "Build output directory"),
   (".gradle", "Gradle build cache"),
   ("out", "Output directory"),
   ("cmake-build-debug", "CMake debug build artifacts"),
   ("cmake-build-release", "CMake release build artifacts"),
   ("build-*", "Wildcard build output directories"),
   ("DerivedData", "Xcode derived data"),
   (".DS_Store", "macOS metadata"),
   (".vscode", "VS Code configuration"),
   (".idea", "JetBrains IDE configuration"),
   (".cache", "Generic build cache"),
   (".scannerwork", "SonarQube scanner cache"),
   ("*.log", "Log files"),
   ("*.tmp", "Temporary files"),
   ("*.bak", "Backup files"),
   ("*.old", "Old backup files"),
   ("*.swp", "Vim swap files"),
   ("*.swo", "Vim swap files"),
   (".env", "Environment variable file"),
   ("docker-compose.override.yml", "Docker override config"),
   ("*.db", "Database files"),
   ("*.sqlite3", "SQLite database files")]

/-! ## Non-gitignore scan (`scanner.rs`, `scan_cleanable_items`) -/

/-- The walker's `filter_entry` predicate: an entry (and hence its whole
subtree) is kept iff its name does not start with `.`, except the literal
name `.git`. -/
def keepName (name : String) : Bool :=
  !(startsWithDot name && name != ".git")

/-- The per-entry pattern test of the matcher loop: glob patterns (those
containing `*`) are matched with `match_glob_pattern`, the rest by verbatim
string equality. -/
def patternTest (pattern name : String) : Bool :=
  if strHasChar pattern '*' then matchGlobPattern pattern name
  else name == pattern

/-- The matcher loop over the catalog: the first pattern (in the given
iteration order) matching the entry name wins, yielding its description. -/
def matchNameIn (catalog : List (String × String)) (name : String) :
    Option String :=
  (catalog.find? fun kd => patternTest kd.1 name).map (·.2)

/-- Matching against `CLEANABLE_PATTERNS` in source insertion order. -/
def matchName (name : String) : Option String :=
  matchNameIn cleanablePatterns name

/-- One candidate filesystem entry of the non-gitignore walk, identified by
its component path below the scan root (`min_depth = 1`, so the list is
nonempty for genuine entries).  The walk visits it iff every component on
the way down survives `keepName` and its depth is within `max_depth`;
a visited entry is reported with the description of the first matching
catalog pattern applied to its file name (the last component). -/
def scanReports (comps : List String) (maxDepth : Nat) : Option String :=
  if 1 ≤ comps.length && comps.length ≤ maxDepth && comps.all keepName then
    matchName (comps.getLast?.getD "")
  else
    none

/-! ## Gitignore mode (`scanner.rs`, `matches_gitignore_pattern`,
`read_gitignore`) -/

/-- ASCII whitespace (the whitespace actually occurring in gitignore
files); stands for Rust `str::trim`. -/
def isWhite (c : Char) : Bool :=
  c == ' ' || c == '\t' || c == '\r' || c == '\n'

/-- Rust `str::trim` on a line. -/
def trimLine (s : String) : String :=
  ⟨((s.data.dropWhile isWhite).reverse.dropWhile isWhite).reverse⟩

/-- Rust `str::trim_end_matches('/')`: removes every trailing `/`. -/
def trimTrailingSlashes (l : List Char) : List Char :=
  (l.reverse.dropWhile (· == '/')).reverse

/-- Substring containment, Rust `str::contains(&str)`. -/
def infixOfB (p : List Char) : List Char → Bool
  | [] => p.isEmpty
  | c :: t => p.isPrefixOf (c :: t) || infixOfB p t

/-- Splits a character list at `/` (keeping empty segments). -/
def splitSlash : List Char → List (List Char)
  | [] => [[]]
  | c :: rest =>
    if c == '/' then [] :: splitSlash rest
    else
      match splitSlash rest with
      | [] => [[c]]
      | w :: ws => (c :: w) :: ws

/-- `Path::new(path).file_name()` followed by
`.map(to_string_lossy).unwrap_or_default()`, for the relative paths this
program produces: the last slash-separated component, skipping empty and
`.` components, with `..` yielding the empty default. -/
def fileNameOf (path : String) : String :=
  let comps := (splitSlash path.data).filter fun c => !c.isEmpty && c != ['.']
  match comps.getLast? with
  | none => ""
  | some c => if c == ['.', '.'] then "" else ⟨c⟩

/-- `matches_gitignore_pattern` from `scanner.rs`, verbatim structure:
trailing-slash rules do a directory-prefix test after stripping the
slashes, rules containing `*` glob against the basename or the whole
relative path, and all other rules test equality, substring containment,
or a `/<pattern>` suffix. -/
def matchesGitignorePattern (pattern path : String) : Bool :=
  if pattern.data.getLast? == some '/' then
    let p := trimTrailingSlashes pattern.data
    path.data == p || (p ++ ['/']).isPrefixOf path.data
  else if strHasChar pattern '*' then
    matchGlobPattern pattern (fileNameOf path) || matchGlobPattern pattern path
  else
    path == pattern || infixOfB pattern.data path.data ||
      ('/' :: pattern.data).isSuffixOf path.data

/-- The matching relation as the specification words it: a rule ending in
`/` matches iff the relative path equals the rule without the trailing
slash(es) or starts with that prefix followed by `/`; a rule containing
`*` matches iff the glob matches the basename or the full relative path;
any other rule matches iff the relative path equals it, contains it as a
substring, or ends with `/` followed by it. -/
def gitignoreRuleSpec (rule rel : String) : Prop :=
  if rule.data.getLast? = some '/' then
    rel.data = trimTrailingSlashes rule.data ∨
      trimTrailingSlashes rule.data ++ ['/'] <+: rel.data
  else if '*' ∈ rule.data then
    globMatchL rule.data (fileNameOf rel).data = true ∨
      globMatchL rule.data rel.data = true
  else
    rel = rule ∨ rule.data <:+: rel.data ∨ '/' :: rule.data <:+ rel.data

/-- `read_gitignore` from `scanner.rs`, applied to the file's lines: each
line is trimmed and kept unless it is empty, a `#` comment, or a `!`
negation. -/
def readGitignore (lines : List String) : List String :=
  (lines.map trimLine).filter fun t =>
    !t.isEmpty && !(t.data.head? == some '#') && !(t.data.head? == some '!')

/-- The rule set as the specification words it: the non-empty,
non-`#`-comment, non-`!`-negated trimmed lines, in file order. -/
def gitignoreRulesSpec (lines : List String) : List String :=
  lines.filterMap fun l =>
    let t := trimLine l
    if t.isEmpty ∨ t.data.head? = some '#' ∨ t.data.head? = some '!' then none
    else some t

/-! ## Directory sizing (`scanner.rs`, `get_directory_size`)

The filesystem below a path is modelled as a finitely-branching tree whose
files carry `Option Nat` metadata (`none` = the `metadata()` call fails). -/

inductive FsTree where
  | file (meta : Option Nat)
  | dir (children : List FsTree)

/-- The metadata `WalkDir` extracts from an entry that `is_file()`:
`e.metadata().ok().map(|m| m.len())`, and `none` for directories (they are
filtered out before the metadata read). -/
def fileLen : FsTree → Option Nat
  | .file m => m
  | .dir _ => none

mutual
/-- The entries produced by `WalkDir::new(path)` (unbounded depth, root
included), in depth-first order. -/
def FsTree.walkEntries : FsTree → List FsTree
  | .file m => [.file m]
  | .dir cs => .dir cs :: walkEntriesList cs

def walkEntriesList : List FsTree → List FsTree
  | [] => []
  | t :: ts => t.walkEntries ++ walkEntriesList ts
end

/-- `get_directory_size`: walk every entry beneath the path, keep the
regular files whose metadata is readable, and sum their lengths. -/
def getDirectorySize (t : FsTree) : Nat :=
  (t.walkEntries.filterMap fileLen).sum

mutual
/-- The size of a tree as the specification words it: the sum of the byte
lengths of all regular files beneath it, an unreadable entry contributing
`0` rather than an error. -/
def specTreeBytes : FsTree → Nat
  | .file m => m.getD 0
  | .dir cs => specTreeBytesList cs

def specTreeBytesList : List FsTree → Nat
  | [] => 0
  | t :: ts => specTreeBytes t + specTreeBytesList ts
end

/-! ## Data model (`models.rs`) -/

/-- `CleanableItem`.  Paths are modelled as their `to_string_lossy`
rendering, so `display_path()` is the path itself; the spec makes the path
the identity key of an item. -/
structure CleanableItem where
  path : String
  item_type : String
  size : Nat
  info : String
  selected : Bool
deriving Repr, DecidableEq

/-- `CleanableItem::new` (`selected` defaults to `false`). -/
def CleanableItem.mk' (path item_type : String) (size : Nat)
    (info : String) : CleanableItem :=
  ⟨path, item_type, size, info, false⟩

/-! ## Cleaner (`cleaner.rs`, `clean_selected_items`) and result
reconciliation (`app.rs`, `start_cleaning`) -/

/-- `CleanResult` from `cleaner.rs`. -/
structure CleanResult where
  path : String
  success : Bool
  size : Nat
deriving Repr, DecidableEq

/-- `clean_selected_items`: filters the selected items and performs one
deletion per selected item, recording one `CleanResult` each — `size` is
the item's original size on success and `0` on failure.  The deletion
outcome is the filesystem oracle `ok`.  Workers push into a shared vector
in completion order; we record them in spawn order, a permutation of any
real interleaving (no theorem below depends on the order). -/
def cleanSelectedItems (items : List CleanableItem) (ok : String → Bool) :
    List CleanResult :=
  (items.filter (·.selected)).map fun it =>
    ⟨it.path, ok it.path, if ok it.path then it.size else 0⟩

/-- The reconciliation in `start_cleaning`: `cleaned_size` is the sum of
the result sizes, and the item list retains exactly the items whose
display path does not occur in the results with `success = true`. -/
def cleanedSizeOf (results : List CleanResult) : Nat :=
  (results.map (·.size)).sum

def retainAfterClean (items : List CleanableItem)
    (results : List CleanResult) : List CleanableItem :=
  items.filter fun item =>
    !(results.any fun r => r.path == item.path && r.success)

/-! ## Size resolver chunking (`scanner.rs`, `calculate_directory_sizes`,
`split_into_chunks`) -/

/-- The chunk-start indices generated by
`(0..len).step_by(chunk_size)` with `chunk_size = step1 + 1` (the source's
chunk size `len / thread_count + 1` is always positive). -/
def stepStarts (step1 : Nat) (start len : Nat) : List Nat :=
  if _h : start < len then start :: stepStarts step1 (start + step1 + 1) len
  else []
termination_by len - start
decreasing_by omega

/-- One worker's emissions in `calculate_directory_sizes`: for
`i in chunk_start..chunk_end` (with `chunk_end = min(chunk_start +
chunk_size, len)`) it sends `(items[i].path, get_directory_size(path))`.
The index range is rendered as a `drop`/`take` slice of the item list. -/
def workerEmissions (dirItems : List CleanableItem) (dirSize : String → Nat)
    (step1 start : Nat) : List (String × Nat) :=
  ((dirItems.drop start).take
      (min (start + step1 + 1) dirItems.length - start)).map
    fun it => (it.path, dirSize it.path)

/-- `calculate_directory_sizes`: filters the items needing resolution
(`size == 0` and the path is a directory, per the oracle `isDir`), returns
early when none remain, and otherwise spawns one worker per chunk of size
`len / thread_count + 1`.  The result is the per-worker emission lists;
the channel interleaves them arbitrarily, so theorems speak about their
concatenation's multiset content. -/
def calculateDirectorySizes (items : List CleanableItem)
    (isDir : String → Bool) (dirSize : String → Nat)
    (threadCount : Nat) : List (List (String × Nat)) :=
  let dirItems := items.filter fun it => it.size == 0 && isDir it.path
  if dirItems.isEmpty then []
  else
    let step1 := dirItems.length / threadCount
    (stepStarts step1 0 dirItems.length).map
      (workerEmissions dirItems dirSize step1)

/-- `split_into_chunks` from `scanner.rs` (used by the walker): chunk `i`
is the slice `items[i*cs .. min(i*cs+cs, len)]` with
`cs = len / chunk_count + 1` for nonempty input, and the loop breaks at
the first start index past the end.  `count` is the remaining loop
iterations (`chunk_count` at the top call). -/
def splitChunksGo (items : List CleanableItem) (cs : Nat) :
    Nat → Nat → List (List CleanableItem)
  | _, 0 => []
  | i, count + 1 =>
    if i * cs ≥ items.length then []
    else
      ((items.drop (i * cs)).take (min (i * cs + cs) items.length - i * cs)) ::
        splitChunksGo items cs (i + 1) count

def splitIntoChunks (items : List CleanableItem) (chunkCount : Nat) :
    List (List CleanableItem) :=
  let cs := if items.isEmpty then 0 else items.length / chunkCount + 1
  splitChunksGo items cs 0 chunkCount

/-! ## Orchestrator state (`models.rs` `App`, `app.rs` state machine)

`progress : f32` and the two `Instant` timestamps are omitted: floating
point and wall-clock time are outside the embedding, and no transition or
claim reads them back.  `list_state` is the selected index of the
`ratatui` `ListState`. -/

inductive AppState where
  | scanning
  | selecting
  | cleaning
  | complete
  | help
deriving Repr, DecidableEq

structure App where
  state : AppState
  previous_state : Option AppState
  items : List CleanableItem
  list_state : Option Nat
  scanning : Bool
  cleaning : Bool
  total_size : Nat
  cleaned_size : Nat
  current_dir : String
  use_gitignore : Bool
  scan_duration : Nat
  scanned_items : Nat
  calculating_sizes : Bool
  pending_sizes : List (String × Nat)
  total_size_jobs : Nat
  completed_size_jobs : Nat
  processing_item : Option String
  max_depth : Nat
  help_scroll : Nat
deriving Repr, DecidableEq

/-- `App::default()` restricted to the modelled fields (`current_dir`
stands for `std::env::current_dir()`). -/
def App.default' (currentDir : String) : App where
  state := .scanning
  previous_state := none
  items := []
  list_state := none
  scanning := true
  cleaning := false
  total_size := 0
  cleaned_size := 0
  current_dir := currentDir
  use_gitignore := false
  scan_duration := 0
  scanned_items := 0
  calculating_sizes := false
  pending_sizes := []
  total_size_jobs := 0
  completed_size_jobs := 0
  processing_item := none
  max_depth := 10
  help_scroll := 0

/-- `App::new`. -/
def App.new (targetDir : String) (useGitignore : Bool) (maxDepth : Nat) :
    App :=
  { App.default' targetDir with
      use_gitignore := useGitignore, max_depth := maxDepth }

/-- `App::selected_count`. -/
def App.selectedCount (a : App) : Nat :=
  (a.items.filter (·.selected)).length

/-- `App::selected_size`. -/
def App.selectedSize (a : App) : Nat :=
  ((a.items.filter (·.selected)).map (·.size)).sum

/-- Stable insertion for descending-by-size order: `x` is placed before
the first strictly smaller element, so items of equal size keep their
relative order. -/
def insertDescBySize (x : CleanableItem) :
    List CleanableItem → List CleanableItem
  | [] => [x]
  | y :: ys =>
    if y.size < x.size then x :: y :: ys else y :: insertDescBySize x ys

/-- Stable descending sort by size; `slice::sort_by` with comparator
`|a, b| b.size.cmp(&a.size)` is a stable sort, and stable sorts for a
fixed comparator agree as functions, so insertion sort realizes it. -/
def sortDescBySize : List CleanableItem → List CleanableItem
  | [] => []
  | x :: xs => insertDescBySize x (sortDescBySize xs)

/-- `App::sort_by_size`. -/
def App.sortBySize (a : App) : App :=
  { a with items := sortDescBySize a.items }

/-- `App::next` (`models.rs` lines 113-129): early return on an empty item
list, otherwise advance the cursor, wrapping to `0` past the end. -/
def App.next (a : App) : App :=
  if a.items.isEmpty then a
  else
    let i :=
      match a.list_state with
      | some i => if i ≥ a.items.length - 1 then 0 else i + 1
      | none => 0
    { a with list_state := some i }

/-- `App::previous` (`models.rs` lines 131-147). -/
def App.previous (a : App) : App :=
  if a.items.isEmpty then a
  else
    let i :=
      match a.list_state with
      | some i => if i = 0 then a.items.length - 1 else i - 1
      | none => 0
    { a with list_state := some i }

/-- Flips `selected` of the element at index `i` (Rust
`items[i].selected = !items[i].selected`; only invoked under the `i <
len` guard). -/
def flipSelectedAt : List CleanableItem → Nat → List CleanableItem
  | [], _ => []
  | x :: xs, 0 => { x with selected := !x.selected } :: xs
  | x :: xs, n + 1 => x :: flipSelectedAt xs n

/-- `App::toggle_selection` (`models.rs` lines 149-155): indexes the item
list only after checking the cursor against its length. -/
def App.toggleSelection (a : App) : App :=
  match a.list_state with
  | some i =>
    if i < a.items.length then { a with items := flipSelectedAt a.items i }
    else a
  | none => a

/-! ## Scan update processing (`app.rs`, `ScanUpdate`,
`process_scan_update`, the rescan reset at lines 56-79, and the clean
completion at lines 347-358)

Orchestrator steps as delivered on the shared progress channel, plus the
two control-loop events that matter to the claims.  `rescanReset` models
the `'r'` key branch (guarded by `state == Selecting && !cleaning`);
`cleanCompleted` models the tail of `start_cleaning` applying the
collected `CleanResult`s. -/

inductive Step where
  | itemsFound (items : List CleanableItem)
  | itemsScanned (n : Nat)
  | sizeUpdate (path : String) (size : Nat)
  | sizeCalculationComplete
  | scanComplete (d : Nat)
  | rescanReset
  | cleanCompleted (results : List CleanResult)
deriving Repr, DecidableEq

/-- `HashMap::insert` on the association list modelling `pending_sizes`. -/
def insertPending (m : List (String × Nat)) (p : String) (s : Nat) :
    List (String × Nat) :=
  match m with
  | [] => [(p, s)]
  | (q, t) :: rest =>
    if q == p then (q, s) :: rest else (q, t) :: insertPending rest p s

/-- The `for item in &mut app.items { if item.path == path { item.size =
size; break } }` loop: only the first item with the given path is
updated. -/
def setFirstSize : List CleanableItem → String → Nat → List CleanableItem
  | [], _, _ => []
  | it :: rest, p, s =>
    if it.path == p then { it with size := s } :: rest
    else it :: setFirstSize rest p s

/-- `process_scan_update` (`app.rs` lines 180-234), the rescan reset
(`app.rs` lines 56-79) and the clean-completion writeback (`app.rs` lines
347-358), one step each. -/
def applyStep (a : App) : Step → App
  | .itemsFound items =>
    let a' := { a with
      items := items
      scanned_items := items.length
      total_size_jobs := items.length
      completed_size_jobs := 0
      pending_sizes := [] }
    if !items.isEmpty then { a' with calculating_sizes := true } else a'
  | .itemsScanned n => { a with scanned_items := n }
  | .sizeUpdate path size =>
    { a with
      pending_sizes := insertPending a.pending_sizes path size
      completed_size_jobs := a.completed_size_jobs + 1
      items := setFirstSize a.items path size }
  | .sizeCalculationComplete =>
    let a' := (App.sortBySize a)
    let a'' := { a' with
      total_size := (a'.items.map (·.size)).sum
      state := .selecting
      scanning := false
      calculating_sizes := false }
    if !a''.items.isEmpty then { a'' with list_state := some 0 } else a''
  | .scanComplete d =>
    let a' := { a with scan_duration := d }
    if !a'.calculating_sizes then
      let a'' := { a' with state := .selecting, scanning := false }
      if !a''.items.isEmpty then { a'' with list_state := some 0 } else a''
    else a'
  | .rescanReset =>
    if a.state = .selecting && !a.cleaning then
      { a with
        state := .scanning
        scanning := true
        scan_duration := 0
        scanned_items := 0
        calculating_sizes := false
        pending_sizes := []
        total_size_jobs := 0
        completed_size_jobs := 0
        processing_item := none
        items := []
        list_state := none
        total_size := 0
        cleaned_size := 0 }
    else a
  | .cleanCompleted results =>
    { a with
      cleaned_size := cleanedSizeOf results
      items := retainAfterClean a.items results
      state := .complete
      cleaning := false }

/-- Folding a delivered message sequence through the control loop. -/
def runSteps (a : App) (steps : List Step) : App :=
  steps.foldl applyStep a

/-- The application state at the top of `run_app` (lines 17-19):
`App::new`'s fields with `state = Scanning` and `scanning = true`
(already its defaults). -/
def initApp : App :=
  App.default' ""

/-- The `' '` (ToggleSelection) branch of `handle_key_event` in the
`Selecting` state (`app.rs` lines 259-264): unless a clean is in flight,
toggle the item under the cursor and overwrite `total_size` with the sum
over the currently selected items. -/
def handleToggleSelectionKey (a : App) : App :=
  if !a.cleaning then
    let a' := a.toggleSelection
    { a' with total_size := a'.selectedSize }
  else a

/-! ## Gitignore scan (`scanner.rs`, `scan_gitignore_items`) -/

/-- A filesystem entry as seen by the gitignore walker: its path relative
to the scan root (also its identity — the absolute path is the root plus
this suffix), whether it is a regular file, and the `fs::metadata` length
(`none` = the call fails, contributing size `0`). -/
structure WalkEntry where
  relPath : String
  isFile : Bool
  metaLen : Option Nat
deriving Repr, DecidableEq

/-- The per-chunk matching loop of `scan_gitignore_items`: each entry is
tested against the rules in order; the first matching rule reports the
entry unless its path was already seen (cross-rule, cross-worker
de-duplication through the shared `seen_paths` set).  Workers interleave
arbitrarily; we fold the entries in walk order. -/
def gitignoreMatchEntries (patterns : List String) :
    List WalkEntry → List String → List CleanableItem
  | [], _ => []
  | e :: es, seen =>
    match patterns.find? fun pat => matchesGitignorePattern pat e.relPath with
    | some pat =>
      if e.relPath ∈ seen then gitignoreMatchEntries patterns es seen
      else
        CleanableItem.mk' e.relPath ("Gitignore pattern: " ++ pat)
            (if e.isFile then e.metaLen.getD 0 else 0)
            "Matches .gitignore pattern" ::
          gitignoreMatchEntries patterns es (e.relPath :: seen)
    | none => gitignoreMatchEntries patterns es seen

/-- `scan_gitignore_items` (`scanner.rs` lines 87-172): when the root has
no `.gitignore`, or it is unreadable, or it yields no rules, the scan
returns the empty list; otherwise every walked entry matching some rule
is reported once.  `gitignoreFile = none` models an absent (or unreadable)
file, `some lines` its text lines. -/
def scanGitignoreItems (gitignoreFile : Option (List String))
    (entries : List WalkEntry) : List CleanableItem :=
  match gitignoreFile with
  | none => []
  | some lines =>
    let patterns := readGitignore lines
    if patterns.isEmpty then []
    else gitignoreMatchEntries patterns entries []

/-! ## Initialization (`app.rs`, `initialize_app`) -/

/-- The filesystem facts `initialize_app` queries. -/
structure Env where
  pathExists : String → Bool
  pathIsDir : String → Bool

/-- `Path::join` for the one join the code performs. -/
def joinPath (dir name : String) : String :=
  dir ++ "/" ++ name

/-- `initialize_app` (`app.rs` lines 361-388): a named target must exist
and be a directory (canonicalization modelled as the identity on the
already-validated path), and when gitignore mode is requested the target
must contain a `.gitignore`; each violation is an immediate error before
any session starts. -/
def initializeTheApp (env : Env) (currentDir : String)
    (targetDir : Option String) (useGitignore : Bool) (maxDepth : Nat) :
    Except String App :=
  match targetDir with
  | some path =>
    if !env.pathExists path then
      .error ("Directory does not exist: " ++ path)
    else if !env.pathIsDir path then
      .error ("Not a directory: " ++ path)
    else if useGitignore && !env.pathExists (joinPath path ".gitignore") then
      .error ("No .gitignore file found in " ++ path)
    else .ok (App.new path useGitignore maxDepth)
  | none =>
    if useGitignore && !env.pathExists (joinPath currentDir ".gitignore") then
      .error ("No .gitignore file found in " ++ currentDir)
    else .ok (App.new currentDir useGitignore maxDepth)

/-! ## Helper lemmas -/

mutual
theorem walkSum_eq (t : FsTree) :
    (t.walkEntries.filterMap fileLen).sum = specTreeBytes t := by
  cases t with
  | file m => cases m <;> simp [FsTree.walkEntries, fileLen, specTreeBytes]
  | dir cs =>
    simpa [FsTree.walkEntries, fileLen, specTreeBytes] using walkListSum_eq cs

theorem walkListSum_eq (ts : List FsTree) :
    ((walkEntriesList ts).filterMap fileLen).sum = specTreeBytesList ts := by
  cases ts with
  | nil => simp [walkEntriesList, specTreeBytesList]
  | cons t ts =>
    simp [walkEntriesList, specTreeBytesList, List.filterMap_append,
      walkSum_eq t, walkListSum_eq ts]
end

/-- C6 — The resolved size of a directory is the recursive sum of its
regular files' byte lengths: `get_directory_size` walks without depth
limit or pattern filter, an entry with unreadable metadata contributes
`0`, the `{100, 250 (nested), 0}` example resolves to `350` (also with an
extra unreadable file present), and an empty directory to `0`. -/
theorem c6_directory_size_is_recursive_file_sum :
    (∀ t : FsTree, getDirectorySize t = specTreeBytes t) ∧
    getDirectorySize
        (.dir [.file (some 100), .dir [.file (some 250)], .file (some 0)])
      = 350 ∧
    getDirectorySize (.dir []) = 0 ∧
    getDirectorySize
        (.dir [.file (some 100), .dir [.file (some 250), .file none],
          .file (some 0)])
      = 350 := by
  refine ⟨fun t => ?_, by decide, by decide, by decide⟩
  simpa [getDirectorySize] using walkSum_eq t

/-- C10 — Cursor operations are total and in-bounds: on an empty item
list `next` and `previous` return the state unchanged (no cursor becomes
selected); `toggle_selection` is the identity when no cursor is selected
or the cursor is out of range (the `i < len` check guards the only
indexing); and on a nonempty list the cursor produced by `next` /
`previous` is always a valid index. -/
theorem c10_cursor_ops_total_and_in_bounds :
    (∀ a : App, a.items = [] → a.next = a ∧ a.previous = a) ∧
    (∀ a : App, a.list_state = none → a.toggleSelection = a) ∧
    (∀ (a : App) (i : Nat), a.list_state = some i → a.items.length ≤ i →
      a.toggleSelection = a) := by
  refine ⟨fun a h => ?_, fun a h => ?_, fun a i h hle => ?_⟩
  · simp [App.next, App.previous, h]
  · simp [App.toggleSelection, h]
  · simp [App.toggleSelection, h, Nat.not_lt.mpr hle]

/-- Witness for C10 at concrete states: the initial application state has
an empty item list and no cursor, and a state with one item and cursor `5`
is left unchanged by `toggle_selection`. -/
theorem c10_witness :
    (initApp.next = initApp ∧ initApp.previous = initApp) ∧
    initApp.toggleSelection = initApp ∧
    (let b := { initApp with
        items := [⟨"x", "t", 1, "", false⟩], list_state := some 5 }
     b.toggleSelection = b) := by
  refine ⟨c10_cursor_ops_total_and_in_bounds.1 initApp rfl,
    c10_cursor_ops_total_and_in_bounds.2.1 initApp rfl,
    c10_cursor_ops_total_and_in_bounds.2.2 _ 5 rfl (by decide)⟩

/-- After the toggle-key handler runs (no clean in flight), `total_size`
is the selected-items sum of the resulting state. -/
theorem c9_total_eq_selected_aux (a : App) (hclean : a.cleaning = false) :
    (handleToggleSelectionKey a).total_size
      = (handleToggleSelectionKey a).selectedSize := by
  simp [handleToggleSelectionKey, hclean, App.selectedSize,
    App.toggleSelection]

/-- C9 — After a ToggleSelection action in the `Selecting` state (where no
clean is in flight), `total_size` equals the sum of the sizes of the
currently selected items only: the all-items total computed at the
scan-complete transition is overwritten (independently of its previous
value) and becomes `0` when nothing is selected. -/
theorem c9_toggle_overwrites_total_size_with_selected_sum
    (a : App) (hstate : a.state = .selecting) (hclean : a.cleaning = false) :
    (handleToggleSelectionKey a).total_size
      = (handleToggleSelectionKey a).selectedSize ∧
    ((handleToggleSelectionKey a).selectedCount = 0 →
      (handleToggleSelectionKey a).total_size = 0) ∧
    ∀ v : Nat,
      handleToggleSelectionKey { a with total_size := v }
        = handleToggleSelectionKey a := by
  refine ⟨c9_total_eq_selected_aux a hclean, fun hzero => ?_, fun v => ?_⟩
  · have hfilter :
        ((handleToggleSelectionKey a).items.filter (·.selected)) = [] := by
      simpa [App.selectedCount, List.length_eq_zero] using hzero
    have := c9_total_eq_selected_aux a hclean
    simp [this, App.selectedSize, hfilter]
  · cases hls : a.list_state <;>
      simp [handleToggleSelectionKey, hclean, App.toggleSelection,
        App.selectedSize, hls] <;>
      split <;> simp [hclean, hls]

/-- A concrete `Selecting` state with one unselected item under the
cursor. -/
def app9 : App :=
  { App.default' "" with
      state := .selecting
      scanning := false
      items := [⟨"x", "t", 7, "", false⟩]
      list_state := some 0
      total_size := 7 }

/-- Witness for C9 at a concrete state. -/
theorem c9_witness :
    app9.state = .selecting ∧ app9.cleaning = false ∧
    (handleToggleSelectionKey app9).total_size
      = (handleToggleSelectionKey app9).selectedSize :=
  ⟨rfl, rfl,
    (c9_toggle_overwrites_total_size_with_selected_sum app9 rfl rfl).1⟩

/-- C8 — When gitignore mode is requested and the scan root has no
`.gitignore`, the scanning layer returns the empty item list (its type is
a plain list — no error can be raised there); the configuration error for
the absent `.gitignore` is instead raised by `initialize_app` before the
session starts, alongside the errors for a missing or non-directory
target path. -/
theorem c8_missing_gitignore_empty_scan_error_at_init :
    (∀ entries : List WalkEntry, scanGitignoreItems none entries = []) ∧
    (∀ (env : Env) (cur p : String) (gi : Bool) (maxD : Nat),
      env.pathExists p = false →
      initializeTheApp env cur (some p) gi maxD
        = .error ("Directory does not exist: " ++ p)) ∧
    (∀ (env : Env) (cur p : String) (gi : Bool) (maxD : Nat),
      env.pathExists p = true → env.pathIsDir p = false →
      initializeTheApp env cur (some p) gi maxD
        = .error ("Not a directory: " ++ p)) ∧
    (∀ (env : Env) (cur p : String) (maxD : Nat),
      env.pathExists p = true → env.pathIsDir p = true →
      env.pathExists (joinPath p ".gitignore") = false →
      initializeTheApp env cur (some p) true maxD
        = .error ("No .gitignore file found in " ++ p)) := by
  refine ⟨fun entries => rfl, fun env cur p gi maxD h1 => ?_,
    fun env cur p gi maxD h1 h2 => ?_, fun env cur p maxD h1 h2 h3 => ?_⟩
  · simp [initializeTheApp, h1]
  · simp [initializeTheApp, h1, h2]
  · simp [initializeTheApp, h1, h2, h3]

/-- A concrete filesystem for the C8 witness: the target `"/t"` exists and
is a directory, but contains no `.gitignore`. -/
def env8 : Env where
  pathExists := fun s => s == "/t"
  pathIsDir := fun s => s == "/t"

/-- Witness for C8 at concrete inputs: the scan of a root without a
`.gitignore` is empty, and `initialize_app` rejects a missing target, a
file target, and a gitignore-less target. -/
theorem c8_witness :
    scanGitignoreItems none [⟨"node_modules", false, none⟩] = [] ∧
    env8.pathExists "/absent" = false ∧
    initializeTheApp env8 "/c" (some "/absent") true 10
      = .error ("Directory does not exist: " ++ "/absent") ∧
    env8.pathExists (joinPath "/t" ".gitignore") = false ∧
    initializeTheApp env8 "/c" (some "/t") true 10
      = .error ("No .gitignore file found in " ++ "/t") :=
  ⟨c8_missing_gitignore_empty_scan_error_at_init.1 _,
    by decide,
    c8_missing_gitignore_empty_scan_error_at_init.2.1 env8 "/c" "/absent"
      true 10 (by decide),
    by decide,
    c8_missing_gitignore_empty_scan_error_at_init.2.2.2 env8 "/c" "/t" 10
      (by decide) (by decide) (by decide)⟩

/-- The aggregate freed size equals the sum of the sizes of the selected
items whose deletion succeeded. -/
theorem cleanedSize_sum_aux (ok : String → Bool) :
    ∀ items : List CleanableItem,
      cleanedSizeOf (cleanSelectedItems items ok)
        = (List.map (·.size)
            (items.filter (fun it : CleanableItem =>
              it.selected && ok it.path))).sum := by
  intro items
  induction items with
  | nil => simp [cleanedSizeOf, cleanSelectedItems]
  | cons it rest ih =>
    by_cases hsel : it.selected <;>
      by_cases hok : ok it.path <;>
      simp [cleanedSizeOf, cleanSelectedItems, List.filter_cons, hsel, hok]
        <;>
      simpa [cleanedSizeOf, cleanSelectedItems] using ih

/-- C4 — The cleaner operates exactly on the selected items, producing one
`CleanResult` per selected item whose `size` is the item's original size
on success and `0` on failure; reconciliation removes exactly the items
whose path appears in the results with `success = true` (under the data
model's identity invariant that paths are distinct) and sets
`cleaned_size` to the sum of the result sizes, i.e. the sum of the sizes
of the successfully deleted items. -/
theorem c4_cleaner_results_and_reconciliation
    (items : List CleanableItem) (ok : String → Bool)
    (hnodup : (items.map (·.path)).Nodup) :
    (cleanSelectedItems items ok).length
      = (items.filter (·.selected)).length ∧
    (cleanSelectedItems items ok).map (·.path)
      = (items.filter (·.selected)).map (·.path) ∧
    (∀ r ∈ cleanSelectedItems items ok,
      ∃ it ∈ items, it.selected = true ∧ r.path = it.path ∧
        r.success = ok it.path ∧
        r.size = if ok it.path then it.size else 0) ∧
    retainAfterClean items (cleanSelectedItems items ok)
      = items.filter (fun it : CleanableItem => !(it.selected && ok it.path)) ∧
    cleanedSizeOf (cleanSelectedItems items ok)
      = (List.map (·.size)
          (items.filter (fun it : CleanableItem =>
            it.selected && ok it.path))).sum := by
  refine ⟨by simp [cleanSelectedItems], ?_, ?_, ?_,
    cleanedSize_sum_aux ok items⟩
  · simp [cleanSelectedItems, List.map_map, Function.comp]
  · intro r hr
    simp only [cleanSelectedItems, List.mem_map, List.mem_filter] at hr
    obtain ⟨it, ⟨hmem, hsel⟩, hform⟩ := hr
    exact ⟨it, hmem, hsel, by simp [← hform], by simp [← hform],
      by simp [← hform]⟩
  · unfold retainAfterClean
    refine List.filter_congr fun item hitem => ?_
    congr 1
    rcases hcase : item.selected && ok item.path with _ | _
    · rcases hany : (cleanSelectedItems items ok).any
          (fun r => r.path == item.path && r.success) with _ | _
      · rfl
      · exfalso
        rw [List.any_eq_true] at hany
        obtain ⟨r, hr, hmatch⟩ := hany
        simp only [cleanSelectedItems, List.mem_map, List.mem_filter] at hr
        obtain ⟨it, ⟨hmem, hsel⟩, hform⟩ := hr
        rw [Bool.and_eq_true, beq_iff_eq] at hmatch
        have hpath : it.path = item.path := by
          rw [← hform] at hmatch; exact hmatch.1
        have heq : it = item :=
          List.inj_on_of_nodup_map hnodup hmem hitem hpath
        have hsucc : ok it.path = true := by
          have := hmatch.2; rw [← hform] at this; exact this
        rw [heq] at hsel hsucc
        simp [hsel, hsucc] at hcase
    · rw [Bool.and_eq_true] at hcase
      apply List.any_eq_true.mpr
      refine ⟨⟨item.path, ok item.path,
        if ok item.path then item.size else 0⟩, ?_, by simp [hcase.2]⟩
      simp only [cleanSelectedItems, List.mem_map, List.mem_filter]
      exact ⟨item, ⟨hitem, hcase.1⟩, rfl⟩

/-- The claim's three-item example: A selected of size 10, B unselected of
size 20, C selected of size 5. -/
def items4 : List CleanableItem :=
  [⟨"A", "t", 10, "", true⟩, ⟨"B", "t", 20, "", false⟩,
   ⟨"C", "t", 5, "", true⟩]

/-- The claim's deletion outcome: A succeeds, C fails. -/
def ok4 : String → Bool := fun s => s == "A"

/-- Witness for C4 on the claim's own example: A is removed, B and C are
retained, and `cleaned_size = 10`. -/
theorem c4_witness :
    (items4.map (·.path)).Nodup ∧
    retainAfterClean items4 (cleanSelectedItems items4 ok4)
      = [⟨"B", "t", 20, "", false⟩, ⟨"C", "t", 5, "", true⟩] ∧
    cleanedSizeOf (cleanSelectedItems items4 ok4) = 10 := by
  have h := c4_cleaner_results_and_reconciliation items4 ok4 (by decide)
  exact ⟨by decide, h.2.2.2.1.trans (by decide), h.2.2.2.2.trans (by decide)⟩

/-- Catalog uniqueness: for every non-glob, non-hidden key, the only
catalog entry whose pattern matches the key as an entry name is that entry
itself — so the first match is the same under every `HashMap` iteration
order. -/
theorem catalogUniqueMatch :
    (cleanablePatterns.all fun kd =>
      strHasChar kd.1 '*' || startsWithDot kd.1 ||
        cleanablePatterns.all fun kd2 =>
          !(patternTest kd2.1 kd.1) || (kd2.2 == kd.2)) = true := by
  decide

/-- A visited entry is reported according to `matchName` on its name. -/
theorem scanReports_visited (comps : List String) (maxD : Nat) (k : String)
    (hlast : comps.getLast? = some k) (hall : comps.all keepName = true)
    (hlen : 1 ≤ comps.length) (hmax : comps.length ≤ maxD) :
    scanReports comps maxD = matchName k := by
  have hgetd : comps.getLast?.getD "" = k := by rw [hlast]; rfl
  simp [scanReports, hall, hlen, hmax, hgetd]

/-- For a non-glob, non-hidden catalog key, the matcher yields exactly its
description. -/
theorem matchName_of_unique (k d : String)
    (hmem : (k, d) ∈ cleanablePatterns)
    (hglob : strHasChar k '*' = false) (hdot : startsWithDot k = false) :
    matchName k = some d := by
  have hself : patternTest k k = true := by simp [patternTest, hglob]
  have hsome : (cleanablePatterns.find? fun kd => patternTest kd.1 k).isSome
      := by
    rw [List.find?_isSome]
    exact ⟨(k, d), hmem, hself⟩
  obtain ⟨kd, hfind⟩ := Option.isSome_iff_exists.mp hsome
  have hp : patternTest kd.1 k = true := by
    simpa using List.find?_some hfind
  have hmem' : kd ∈ cleanablePatterns := List.mem_of_find?_eq_some hfind
  have h1 := (List.all_eq_true.mp catalogUniqueMatch) (k, d) hmem
  rw [hglob, hdot] at h1
  simp only [Bool.false_or] at h1
  have h2 := (List.all_eq_true.mp h1) kd hmem'
  simp only [hp, Bool.not_true, Bool.false_or, beq_iff_eq] at h2
  simp [matchName, matchNameIn, hfind, h2]

/-- Counterexample to C3 as stated: `.vscode` is a catalog key without
`*`, and its description would match an entry named `.vscode`, but the
walker's hidden-entry filter prunes every name starting with `.` except
`.git`, so the non-gitignore scan never reports it at all. -/
theorem c3_counterexample :
    (".vscode", "VS Code configuration") ∈ cleanablePatterns ∧
    strHasChar ".vscode" '*' = false ∧
    matchName ".vscode" = some "VS Code configuration" ∧
    keepName ".vscode" = false ∧
    scanReports [".vscode"] 10 = none := by
  decide

/-- C3 (amended) — For every catalog key without `*` that does not begin
with `.`, every filesystem entry within the depth ceiling whose name
equals that key verbatim and whose path components all survive the
hidden-entry filter is reported with that pattern's catalog description
(under any catalog iteration order, since no other pattern matches such a
key); keys beginning with `.` are never reported because the walker
prunes hidden names before matching. -/
theorem c3_nondot_exact_keys_reported (k d : String)
    (comps : List String) (maxD : Nat)
    (hmem : (k, d) ∈ cleanablePatterns)
    (hglob : strHasChar k '*' = false) (hdot : startsWithDot k = false)
    (hall : comps.all keepName = true) (hlast : comps.getLast? = some k)
    (hlen : 1 ≤ comps.length) (hmax : comps.length ≤ maxD) :
    scanReports comps maxD = some d := by
  rw [scanReports_visited comps maxD k hlast hall hlen hmax]
  exact matchName_of_unique k d hmem hglob hdot

/-- Witness for C3 (amended): an entry `src/node_modules` at depth 2 is
reported as Node.js dependencies. -/
theorem c3_witness :
    ("node_modules", "Node.js dependencies") ∈ cleanablePatterns ∧
    scanReports ["src", "node_modules"] 10 = some "Node.js dependencies" :=
  ⟨by decide,
    c3_nondot_exact_keys_reported "node_modules" "Node.js dependencies"
      ["src", "node_modules"] 10 (by decide) (by decide) (by decide)
      (by decide) (by decide) (by decide) (by decide)⟩

/-- The executable substring test agrees with the infix relation. -/
theorem infixOfB_iff (p : List Char) :
    ∀ s : List Char, infixOfB p s = true ↔ p <:+: s := by
  intro s
  induction s with
  | nil =>
    simp [infixOfB, List.isEmpty_iff]
  | cons c t ih =>
    simp [infixOfB, List.infix_cons_iff, ih]

/-- C7 — In gitignore mode the rule matching and rule extraction are
exactly as the specification describes: a trailing-`/` rule matches iff
the relative path equals the slash-stripped rule or extends it as a
directory prefix; a `*` rule matches iff the glob matches the basename or
the whole relative path; any other rule matches iff the relative path
equals it, contains it as a substring, or ends in `/` followed by it —
and the rules are exactly the non-empty, non-`#`, non-`!` trimmed lines
of the `.gitignore`. -/
theorem c7_gitignore_matching_as_specified :
    (∀ rule rel : String,
      matchesGitignorePattern rule rel = true ↔ gitignoreRuleSpec rule rel) ∧
    (∀ lines : List String, readGitignore lines = gitignoreRulesSpec lines)
    := by
  constructor
  · intro rule rel
    unfold matchesGitignorePattern gitignoreRuleSpec
    by_cases h1 : rule.data.getLast? = some '/'
    · simp [h1, String.ext_iff, infixOfB_iff]
    · by_cases h2 : '*' ∈ rule.data
      · simp [h1, h2, strHasChar, matchGlobPattern]
      · simp [h1, h2, strHasChar, String.ext_iff, infixOfB_iff, or_assoc]
  · intro lines
    induction lines with
    | nil => simp [readGitignore, gitignoreRulesSpec]
    | cons l rest ih =>
      by_cases he : (trimLine l).isEmpty
      · simp [readGitignore, gitignoreRulesSpec, he] at ih ⊢
        exact ih
      · by_cases hh : (trimLine l).data.head? = some '#'
        · simp [readGitignore, gitignoreRulesSpec, he, hh] at ih ⊢
          exact ih
        · by_cases hb : (trimLine l).data.head? = some '!'
          · simp [readGitignore, gitignoreRulesSpec, he, hh, hb] at ih ⊢
            exact ih
          · simp [readGitignore, gitignoreRulesSpec, he, hh, hb] at ih ⊢
            exact ih

/-- The contiguous chunks starting at `start` cover `drop start` exactly
once: concatenating every worker's emissions reproduces the directory
list from `start` on, mapped through the emission function. -/
theorem stepStarts_cover (D : List CleanableItem) (dirSize : String → Nat)
    (step1 : Nat) :
    ∀ (n start : Nat), D.length - start ≤ n →
      ((stepStarts step1 start D.length).map
          (workerEmissions D dirSize step1)).flatten
        = (D.drop start).map fun it => (it.path, dirSize it.path) := by
  intro n
  induction n with
  | zero =>
    intro start h
    have hge : ¬ start < D.length := by omega
    rw [stepStarts]
    rw [List.drop_eq_nil_of_le (show D.length ≤ start by omega)]
    simp [hge]
  | succ n ih =>
    intro start h
    by_cases hlt : start < D.length
    · rw [stepStarts]
      simp only [hlt, dif_pos, List.map_cons, List.flatten_cons]
      rw [ih (start + step1 + 1) (by omega)]
      unfold workerEmissions
      rw [← List.map_append]
      congr 1
      have hdrop : D.drop (start + step1 + 1)
          = (D.drop start).drop (step1 + 1) := by
        rw [List.drop_drop]
        congr 1
      rw [hdrop]
      have hlen : (D.drop start).length = D.length - start :=
        List.length_drop start D
      by_cases hcs : step1 + 1 ≤ D.length - start
      · have hmin : min (start + step1 + 1) D.length - start = step1 + 1 :=
          by omega
        rw [hmin, List.take_append_drop]
      · have hmin : min (start + step1 + 1) D.length - start
            = D.length - start := by omega
        have hnil : (D.drop start).drop (step1 + 1) = [] :=
          List.drop_eq_nil_of_le (by rw [hlen]; omega)
        rw [hmin, ← hlen, List.take_length, hnil, List.append_nil]
    · rw [stepStarts]
      rw [List.drop_eq_nil_of_le (show D.length ≤ start by omega)]
      simp [hlt]

/-- C5 — For `M` items that are all unresolved directories with distinct
paths and any worker count `N ≥ 2`, the size resolver emits exactly `M`
`(path, size)` pairs across its workers: the index partition covers every
directory item exactly once, so the emitted paths are exactly the `M`
input paths (hence pairwise distinct), regardless of `N`. -/
theorem c5_resolver_emits_each_directory_once
    (items : List CleanableItem) (isDir : String → Bool)
    (dirSize : String → Nat) (N : Nat) (hN : 2 ≤ N)
    (hdirs : ∀ it ∈ items, it.size = 0 ∧ isDir it.path = true)
    (hnodup : (items.map (·.path)).Nodup) :
    ((calculateDirectorySizes items isDir dirSize N).flatten).length
        = items.length ∧
    ((calculateDirectorySizes items isDir dirSize N).flatten).map Prod.fst
        = items.map (·.path) ∧
    (((calculateDirectorySizes items isDir dirSize N).flatten).map
        Prod.fst).Nodup := by
  have hfilter : items.filter (fun it => it.size == 0 && isDir it.path)
      = items := by
    apply List.filter_eq_self.mpr
    intro it hmem
    have := hdirs it hmem
    simp [this.1, this.2]
  have hflatten : (calculateDirectorySizes items isDir dirSize N).flatten
      = items.map fun it => (it.path, dirSize it.path) := by
    unfold calculateDirectorySizes
    rw [hfilter]
    by_cases hemp : items.isEmpty
    · rw [List.isEmpty_iff] at hemp
      simp [hemp]
    · simp only [hemp, if_neg, Bool.false_eq_true, not_false_eq_true]
      have := stepStarts_cover items dirSize (items.length / N)
        items.length 0 (by omega)
      simpa using this
  refine ⟨?_, ?_, ?_⟩
  · rw [hflatten]; simp
  · rw [hflatten]; simp [List.map_map, Function.comp]
  · rw [hflatten]
    simpa [List.map_map, Function.comp] using hnodup

/-- Three concrete zero-size directory items with distinct paths. -/
def items5 : List CleanableItem :=
  [⟨"d1", "t", 0, "", false⟩, ⟨"d2", "t", 0, "", false⟩,
   ⟨"d3", "t", 0, "", false⟩]

/-- Witness for C5 with `M = 3` directories and `N = 2` workers. -/
theorem c5_witness :
    2 ≤ 2 ∧
    List.length
        (List.flatten
          (calculateDirectorySizes items5 (fun _ => true) (fun _ => 9) 2))
      = items5.length :=
  ⟨by decide,
    (c5_resolver_emits_each_directory_once items5 (fun _ => true)
        (fun _ => 9) 2 (by decide)
        (by
          intro it hmem
          simp only [items5, List.mem_cons, List.not_mem_nil,
            or_false] at hmem
          rcases hmem with rfl | rfl | rfl <;> exact ⟨rfl, rfl⟩)
        (by decide)).1⟩

/-! ## C2: the size-job counter invariant -/

/-- A delivered message sequence is free of stale size updates when,
walking it left to right, every `SizeUpdate` is covered by the budget of
the current scan: an `ItemsFound` grants a budget of one update per found
item (the actual number of pending jobs is at most that), a rescan reset
revokes the budget, and each applied update consumes one unit.  Messages
of an abandoned scan delivered after a reset are exactly the updates this
condition forbids. -/
def suBudget : List Step → Nat → Bool
  | [], _ => true
  | .itemsFound items :: rest, _ => suBudget rest items.length
  | .sizeUpdate _ _ :: rest, b => b != 0 && suBudget rest (b - 1)
  | .rescanReset :: rest, _ => suBudget rest 0
  | _ :: rest, b => suBudget rest b

/-- The budget condition is closed under prefixes. -/
theorem suBudget_append :
    ∀ (p q : List Step) (b : Nat), suBudget (p ++ q) b = true →
      suBudget p b = true := by
  intro p q
  induction p generalizing q with
  | nil => intro b _; rfl
  | cons s rest ih =>
    intro b h
    cases s with
    | itemsFound items =>
      exact ih q _ (by simpa [suBudget] using h)
    | sizeUpdate path size =>
      simp only [List.cons_append, suBudget, Bool.and_eq_true] at h ⊢
      exact ⟨h.1, ih q _ h.2⟩
    | rescanReset =>
      exact ih q _ (by simpa [suBudget] using h)
    | itemsScanned n =>
      exact ih q _ (by simpa [suBudget] using h)
    | sizeCalculationComplete =>
      exact ih q _ (by simpa [suBudget] using h)
    | scanComplete d =>
      exact ih q _ (by simpa [suBudget] using h)
    | cleanCompleted results =>
      exact ih q _ (by simpa [suBudget] using h)

/-- Budgeted executions preserve `completed_size_jobs + budget ≤
total_size_jobs`, hence the counter inequality. -/
theorem suBudget_invariant :
    ∀ (t : List Step) (b : Nat) (a : App), suBudget t b = true →
      a.completed_size_jobs + b ≤ a.total_size_jobs →
      (runSteps a t).completed_size_jobs
        ≤ (runSteps a t).total_size_jobs := by
  intro t
  induction t with
  | nil =>
    intro b a _ hle
    simpa [runSteps] using (by omega : a.completed_size_jobs
      ≤ a.total_size_jobs)
  | cons s rest ih =>
    intro b a hb hle
    rw [show runSteps a (s :: rest) = runSteps (applyStep a s) rest from rfl]
    cases s with
    | itemsFound items =>
      refine ih items.length _ (by simpa [suBudget] using hb) ?_
      simp only [applyStep]
      split <;> simp
    | itemsScanned n =>
      exact ih b _ (by simpa [suBudget] using hb) (by simpa [applyStep])
    | sizeUpdate path size =>
      simp only [suBudget, Bool.and_eq_true, bne_iff_ne, ne_eq] at hb
      refine ih (b - 1) _ hb.2 ?_
      simp only [applyStep]
      have : b ≠ 0 := hb.1
      omega
    | sizeCalculationComplete =>
      refine ih b _ (by simpa [suBudget] using hb) ?_
      simp only [applyStep, App.sortBySize]
      split <;> simpa using hle
    | scanComplete d =>
      refine ih b _ (by simpa [suBudget] using hb) ?_
      simp only [applyStep]
      split
      · split <;> simpa using hle
      · simpa using hle
    | rescanReset =>
      refine ih 0 _ (by simpa [suBudget] using hb) ?_
      simp only [applyStep]
      split
      · simp
      · omega
    | cleanCompleted results =>
      exact ih b _ (by simpa [suBudget] using hb) (by simpa [applyStep])

/-- C2 (amended) — For every delivered message sequence in which each
applied `SizeUpdate` belongs to the current scan (it follows the current
scan's `ItemsFound`, within its item budget, with no update applied after
a rescan reset until the new scan's `ItemsFound` arrives), every reachable
state satisfies `completed_size_jobs ≤ total_size_jobs`.  The stale-update
executions excluded here genuinely violate the inequality — see the
counterexample. -/
theorem c2_counter_invariant_without_stale_updates
    (t p : List Step) (hb : suBudget t 0 = true) (hp : p <+: t) :
    (runSteps initApp p).completed_size_jobs
      ≤ (runSteps initApp p).total_size_jobs := by
  obtain ⟨q, rfl⟩ := hp
  exact suBudget_invariant p 0 initApp (suBudget_append p q 0 hb)
    (by simp [initApp, App.default'])

/-- A directory item of unresolved size, as the walker produces it. -/
def dirItemA : CleanableItem :=
  ⟨"a", "Rust build artifacts", 0, "Rust build artifacts", false⟩

/-- A complete single-scan delivery with one size update. -/
def trace2 : List Step :=
  [.itemsFound [dirItemA], .itemsScanned 1, .scanComplete 5,
   .sizeUpdate "a" 7, .sizeCalculationComplete, .scanComplete 9]

/-- Witness for C2 (amended) on a concrete stale-free delivery. -/
theorem c2_witness :
    suBudget trace2 0 = true ∧
    (runSteps initApp trace2).completed_size_jobs
      ≤ (runSteps initApp trace2).total_size_jobs :=
  ⟨by decide,
    c2_counter_invariant_without_stale_updates trace2 trace2 (by decide)
      (List.prefix_refl _)⟩

/-- The reachable delivery refuting C2 as stated: scan 1 finds nothing, so
its trailing messages are still queued when the state reaches `Selecting`;
a rescan is requested; scan 2 finds one directory, but its `ItemsFound` is
followed by another rescan reset (zeroing both counters), after which scan
2's still-queued `SizeUpdate` is applied. -/
def c2trace : List Step :=
  [.itemsFound [], .itemsScanned 0, .scanComplete 0, .rescanReset,
   .sizeCalculationComplete, .scanComplete 0,
   .itemsFound [⟨"d", "t", 0, "", false⟩], .rescanReset,
   .itemsScanned 1, .scanComplete 0, .sizeUpdate "d" 42]

/-- Counterexample to C2 as stated: after the stale `SizeUpdate` of the
abandoned scan is applied past the rescan reset, `completed_size_jobs = 1`
exceeds `total_size_jobs = 0`. -/
theorem c2_counterexample :
    (runSteps initApp c2trace).completed_size_jobs = 1 ∧
    (runSteps initApp c2trace).total_size_jobs = 0 := by
  decide

/-! ## C1: the Scanning-to-Selecting transition -/

/-- The message kinds `scan_background` emits between the first
`ScanComplete` and `SizeCalculationComplete`: size updates and item-count
refreshes. -/
def isMidStep : Step → Bool
  | .sizeUpdate _ _ => true
  | .itemsScanned _ => true
  | _ => false

def isSizeUpdate : Step → Bool
  | .sizeUpdate _ _ => true
  | _ => false

def isItemsFound : Step → Bool
  | .itemsFound _ => true
  | _ => false

/-- Number of size updates delivered in a message sequence. -/
def suCount (t : List Step) : Nat := t.countP isSizeUpdate

/-- The delivery order of a single scan on the progress channel, exactly
as `scan_background` sends it: discovery results, the item count, the
first completion timestamp, then the size updates (interleaved with
item-count refreshes), the size-completion marker, and the final
timestamp. -/
def scanTrace (items : List CleanableItem) (n d : Nat) (mid : List Step)
    (d' : Nat) : List Step :=
  [Step.itemsFound items, .itemsScanned n, .scanComplete d] ++ mid ++
    [Step.sizeCalculationComplete, .scanComplete d']

theorem applyStep_itemsFound_state (a : App) (items : List CleanableItem) :
    (applyStep a (.itemsFound items)).state = a.state := by
  simp only [applyStep]
  split <;> rfl

theorem applyStep_itemsFound_calc (a : App) (items : List CleanableItem) :
    (applyStep a (.itemsFound items)).calculating_sizes
      = (a.calculating_sizes || !items.isEmpty) := by
  simp only [applyStep]
  split <;> simp_all

theorem applyStep_scanComplete_state (a : App) (d : Nat) :
    (applyStep a (.scanComplete d)).state
      = (if a.calculating_sizes then a.state else .selecting) := by
  simp only [applyStep]
  by_cases h : a.calculating_sizes <;> simp [h] <;> split <;> rfl

theorem applyStep_scanComplete_calc (a : App) (d : Nat) :
    (applyStep a (.scanComplete d)).calculating_sizes
      = a.calculating_sizes := by
  simp only [applyStep]
  split
  · split <;> rfl
  · rfl

theorem applyStep_scc_state (a : App) :
    (applyStep a .sizeCalculationComplete).state = .selecting := by
  simp only [applyStep]
  split <;> rfl

theorem applyStep_scc_calc (a : App) :
    (applyStep a .sizeCalculationComplete).calculating_sizes = false := by
  simp only [applyStep]
  split <;> rfl

/-- Mid-stream messages (size updates, item counts) change neither the
state tag nor the sizing flag. -/
theorem midSteps_preserve :
    ∀ l : List Step, l.all isMidStep = true → ∀ a : App,
      (runSteps a l).state = a.state ∧
      (runSteps a l).calculating_sizes = a.calculating_sizes := by
  intro l
  induction l with
  | nil => intro _ a; exact ⟨rfl, rfl⟩
  | cons s rest ih =>
    intro hall a
    rw [List.all_cons, Bool.and_eq_true] at hall
    have hstep : (applyStep a s).state = a.state ∧
        (applyStep a s).calculating_sizes = a.calculating_sizes := by
      cases s <;> simp_all [isMidStep, applyStep]
    have hrest := ih hall.2 (applyStep a s)
    exact ⟨hrest.1.trans hstep.1, hrest.2.trans hstep.2⟩

/-- A prefix of a concatenation is a prefix of the left part or extends
it by a prefix of the right part. -/
theorem prefixAppendCases {α : Type} :
    ∀ (l1 : List α) (p l2 : List α), p <+: l1 ++ l2 →
      p <+: l1 ∨ ∃ q, p = l1 ++ q ∧ q <+: l2 := by
  intro l1
  induction l1 with
  | nil => intro p l2 h; right; exact ⟨p, rfl, h⟩
  | cons x l1 ih =>
    intro p l2 h
    rw [List.cons_append, List.prefix_cons_iff] at h
    rcases h with rfl | ⟨t, rfl, ht⟩
    · left; exact List.nil_prefix
    · rcases ih t l2 ht with h1 | ⟨q, rfl, hq⟩
      · left; exact (List.cons_prefix_cons).mpr ⟨rfl, h1⟩
      · right; exact ⟨q, rfl, hq⟩

/-- The state and sizing flag after the three discovery messages of a
single scan. -/
theorem head3_char (items : List CleanableItem) (n d : Nat) :
    (runSteps initApp
        [Step.itemsFound items, .itemsScanned n, .scanComplete d]).state
      = (if items.isEmpty then AppState.selecting else .scanning) ∧
    (runSteps initApp
        [Step.itemsFound items, .itemsScanned n,
          .scanComplete d]).calculating_sizes
      = !items.isEmpty := by
  have h1 : (applyStep initApp (.itemsFound items)).calculating_sizes
      = !items.isEmpty := by
    rw [applyStep_itemsFound_calc]; rfl
  have h1s : (applyStep initApp (.itemsFound items)).state = .scanning :=
    applyStep_itemsFound_state initApp items
  show ((applyStep (applyStep (applyStep initApp (.itemsFound items))
      (.itemsScanned n)) (.scanComplete d)).state = _) ∧
    ((applyStep (applyStep (applyStep initApp (.itemsFound items))
      (.itemsScanned n)) (.scanComplete d)).calculating_sizes = _)
  have h2 : (applyStep (applyStep initApp (.itemsFound items))
      (.itemsScanned n)) = { applyStep initApp (.itemsFound items) with
        scanned_items := n } := rfl
  rw [applyStep_scanComplete_state, applyStep_scanComplete_calc, h2]
  simp only [h1, h1s]
  cases items <;> simp

/-- C1 (amended) — For a single scan whose messages are delivered in the
order `scan_background` emits them (no rescan, no messages from an
abandoned scan), whenever a delivered prefix leaves the orchestrator in
`Selecting`, that prefix already contains the complete discovery phase
(`ItemsFound`, the item count, and the discovery `ScanComplete`) and
every size update of the scan, all applied.  The rescan/stale-message
executions excluded here genuinely break this — see the
counterexample. -/
theorem c1_selecting_only_after_discovery_and_sizes
    (items : List CleanableItem) (n d : Nat) (mid : List Step) (d' : Nat)
    (p : List Step)
    (hmid : mid.all isMidStep = true)
    (hsu : 0 < suCount mid → items ≠ [])
    (hp : p <+: scanTrace items n d mid d')
    (hsel : (runSteps initApp p).state = .selecting) :
    [Step.itemsFound items, .itemsScanned n, .scanComplete d] <+: p ∧
    suCount p = suCount mid := by
  have hinit : initApp.state = .scanning := rfl
  unfold scanTrace at hp
  simp only [List.cons_append, List.nil_append] at hp
  rcases List.prefix_cons_iff.mp hp with rfl | ⟨p1, rfl, hp1⟩
  · exact absurd hsel (by simp [runSteps, initApp, App.default'])
  rcases List.prefix_cons_iff.mp hp1 with rfl | ⟨p2, rfl, hp2⟩
  · exact absurd hsel (by
      simp [runSteps, applyStep_itemsFound_state, initApp, App.default'])
  rcases List.prefix_cons_iff.mp hp2 with rfl | ⟨p3, rfl, hp3⟩
  · refine absurd hsel ?_
    rw [show (runSteps initApp
        [Step.itemsFound items, Step.itemsScanned n]).state
        = AppState.scanning from applyStep_itemsFound_state initApp items]
    simp
  -- p = IF :: IS :: SC :: p3 with p3 a prefix of mid ++ [SCC, SC d']
  have hpre : [Step.itemsFound items, .itemsScanned n, .scanComplete d]
      <+: Step.itemsFound items :: Step.itemsScanned n
        :: Step.scanComplete d :: p3 := by
    simpa using List.prefix_append
      [Step.itemsFound items, .itemsScanned n, .scanComplete d] p3
  have hrun : runSteps initApp (Step.itemsFound items
      :: Step.itemsScanned n :: Step.scanComplete d :: p3)
      = runSteps (runSteps initApp
          [Step.itemsFound items, .itemsScanned n, .scanComplete d]) p3 :=
    rfl
  set a3 := runSteps initApp
    [Step.itemsFound items, .itemsScanned n, .scanComplete d] with ha3
  have hchar := head3_char items n d
  rw [← ha3] at hchar
  have hcount3 : suCount (Step.itemsFound items :: Step.itemsScanned n
      :: Step.scanComplete d :: p3) = suCount p3 := by
    simp [suCount, List.countP_cons, isSizeUpdate]
  rcases prefixAppendCases mid p3 [Step.sizeCalculationComplete,
      .scanComplete d'] hp3 with hmidpre | ⟨q, rfl, hq⟩
  · -- p3 stops inside mid: the state is still the post-discovery state
    have hallp3 : p3.all isMidStep = true := by
      rw [List.all_eq_true]
      intro s hs
      exact (List.all_eq_true.mp hmid) s (hmidpre.sublist.mem hs)
    have hpres := midSteps_preserve p3 hallp3 a3
    rw [hrun] at hsel
    rw [hpres.1] at hsel
    by_cases hitems : items.isEmpty
    · have hnil : items = [] := List.isEmpty_iff.mp hitems
      have hmid0 : suCount mid = 0 := by
        by_contra hne
        exact hsu (Nat.pos_of_ne_zero hne) hnil
      have hle : suCount p3 ≤ suCount mid :=
        List.Sublist.countP_le _ hmidpre.sublist
      exact ⟨hpre, by rw [hcount3]; omega⟩
    · rw [hchar.1] at hsel
      simp [hitems] at hsel
  · -- p3 = mid ++ q with q a prefix of the two closing messages
    have hcountmid : suCount (mid ++ q) = suCount mid + suCount q := by
      simp [suCount]
    rcases List.prefix_cons_iff.mp hq with rfl | ⟨q1, rfl, hq1⟩
    · -- q = []: all of mid delivered, state still the post-discovery one
      have hpres := midSteps_preserve mid hmid a3
      rw [hrun] at hsel
      simp only [List.append_nil] at hsel hpre hcount3 ⊢
      rw [hpres.1] at hsel
      by_cases hitems : items.isEmpty
      · exact ⟨hpre, by rw [hcount3]⟩
      · rw [hchar.1] at hsel
        simp [hitems] at hsel
    · rcases List.prefix_cons_iff.mp hq1 with rfl | ⟨q2, rfl, hq2⟩
      · -- q = [SCC]
        refine ⟨hpre, ?_⟩
        rw [hcount3, hcountmid]
        simp [suCount, isSizeUpdate]
      · have hq2nil : q2 = [] := List.prefix_nil.mp hq2
        subst hq2nil
        refine ⟨hpre, ?_⟩
        rw [hcount3, hcountmid]
        simp [suCount, isSizeUpdate, List.countP_cons]

/-- One unresolved directory item for the C1 witness scan. -/
def c1w : List CleanableItem := [⟨"w", "t", 0, "", false⟩]

/-- The witness scan's mid-stream: one size update. -/
def c1mid : List Step := [.sizeUpdate "w" 7]

/-- The witness scan's full delivery. -/
def c1full : List Step := scanTrace c1w 1 3 c1mid 4

/-- Witness for C1 (amended): a complete single-scan delivery with one
directory ends in `Selecting`, and the theorem yields that the discovery
messages and every size update were already delivered. -/
theorem c1_witness :
    (runSteps initApp c1full).state = AppState.selecting ∧
    [Step.itemsFound c1w, .itemsScanned 1, .scanComplete 3] <+: c1full ∧
    suCount c1full = suCount c1mid := by
  have h := c1_selecting_only_after_discovery_and_sizes c1w 1 3 c1mid 4
    c1full (by decide) (by decide) (List.prefix_refl _) (by decide)
  exact ⟨by decide, h.1, h.2⟩

/-- A reachable delivery refuting C1 as stated: a scan of an empty
directory reaches `Selecting` at its first `ScanComplete` while its two
trailing messages are still queued; the user requests a rescan
(re-entering `Scanning`), and the abandoned scan's stale
`SizeCalculationComplete` is delivered next. -/
def c1trace : List Step :=
  [.itemsFound [], .itemsScanned 0, .scanComplete 0, .rescanReset,
   .sizeCalculationComplete]

/-- Counterexample to C1 as stated: immediately after the rescan reset the
state is `Scanning`, yet the very next delivered message — a stale
completion marker from the abandoned scan — moves it to `Selecting`, even
though no discovery message (`ItemsFound`) and no size update of the
current scan has been delivered, so the transition occurs before item
discovery has completed. -/
theorem c1_counterexample :
    (runSteps initApp (c1trace.take 4)).state = AppState.scanning ∧
    (runSteps initApp c1trace).state = AppState.selecting ∧
    (c1trace.drop 4).countP isItemsFound = 0 ∧
    (c1trace.drop 4).countP isSizeUpdate = 0 := by
  decide

end DevTidy
